import Mathlib

/-!
Verification development for the db-chatbot repository.

The Python sources are shallowly embedded: Python `str` becomes `String`
(manipulated as `List Char`), Python `float` becomes `ℚ`, Python `int`
becomes `Nat`/`Int`, `None`-able values become `Option`, and the regular
expressions that appear in `src/utils/security.py` are compiled by hand
into executable matchers over `List Char` (word boundaries `\b`,
whitespace runs `\s+`/`\s*`, digit runs `\d+`, and the dot-star of
`\bUPDATE\s+.*\s+SET\b` where `.` matches every character except a
newline, with the usual leftmost search and backtracking semantics).
-/

/-- Python's `\s` character class restricted to ASCII, which is also what
`str.strip()` removes from ASCII text. -/
def isPySpace (c : Char) : Bool :=
  c == ' ' || c == '\t' || c == '\n' || c == '\r' || c == '\x0b' || c == '\x0c'

/-- Python's `\w` character class restricted to ASCII. -/
def isWordChar (c : Char) : Bool := c.isAlphanum || c == '_'

/-- Embedding of `str.upper()` (ASCII). -/
def upperL (l : List Char) : List Char := l.map Char.toUpper

/-- Embedding of `str.lower()` (ASCII). -/
def lowerL (l : List Char) : List Char := l.map Char.toLower

/-- Boolean prefix test on character lists. -/
def hasPrefixL : List Char → List Char → Bool
  | [], _ => true
  | _ :: _, [] => false
  | p :: ps, c :: cs => p == c && hasPrefixL ps cs

/-- Boolean suffix test (Python `str.endswith`). -/
def hasSuffixL (p l : List Char) : Bool := hasPrefixL p.reverse l.reverse

/-- Embedding of Python's substring test `pat in l`. -/
def containsSub (pat : List Char) : List Char → Bool
  | [] => pat.isEmpty
  | c :: rest => hasPrefixL pat (c :: rest) || containsSub pat rest

/-- Fuel-driven scanner behind `countSub`; the fuel is structurally
decreasing so the kernel can evaluate it, and a fuel of the list length
is always enough because every step drops at least one character. -/
def countSubF (pat : List Char) : Nat → List Char → Nat
  | _, [] => 0
  | 0, _ :: _ => 0
  | fuel + 1, c :: rest =>
    if pat ≠ [] ∧ hasPrefixL pat (c :: rest) = true then
      1 + countSubF pat fuel ((c :: rest).drop pat.length)
    else
      countSubF pat fuel rest

/-- Embedding of Python's `str.count` for a non-empty pattern:
non-overlapping occurrences, scanning left to right. -/
def countSub (pat l : List Char) : Nat := countSubF pat l.length l

/-- Case-insensitive literal matching: consume `pat` (given in upper case)
from the front of `l`, comparing through `Char.toUpper`; this is how a
literal inside an `re.IGNORECASE` pattern matches. -/
def dropCI : List Char → List Char → Option (List Char)
  | [], l => some l
  | _ :: _, [] => none
  | p :: ps, c :: cs => if c.toUpper = p then dropCI ps cs else none

/-- Run continuation `k` after a case-insensitive literal. -/
def tryDrop (pat : List Char) (k : List Char → Bool) (l : List Char) : Bool :=
  match dropCI pat l with
  | some r => k r
  | none => false

/-- Regex `\s+` followed by `k`: one or more whitespace characters, with
full backtracking (every non-empty whitespace split is tried). -/
def spaces1Then (k : List Char → Bool) : List Char → Bool
  | [] => false
  | c :: rest => isPySpace c && (k rest || spaces1Then k rest)

/-- Regex `\s*` followed by `k`. -/
def spaces0Then (k : List Char → Bool) (l : List Char) : Bool :=
  k l || spaces1Then k l

/-- Regex `.*` followed by `k`: any run of non-newline characters, with
full backtracking. -/
def dotStarThen (k : List Char → Bool) : List Char → Bool
  | [] => k []
  | c :: rest => k (c :: rest) || (c != '\n' && dotStarThen k rest)

/-- A trailing `\b` after a word character: end of input or a non-word
character. -/
def wordEndAt : List Char → Bool
  | [] => true
  | c :: _ => !isWordChar c

/-- A leading `\b` before a word character, given the previous character. -/
def bOK : Option Char → Bool
  | none => true
  | some c => !isWordChar c

/-- Search for a position matcher `m` at every position, tracking the
previous character so a leading word boundary can be checked; this is
`re.search` for patterns starting with `\b` + word character. -/
def searchWBFrom (m : List Char → Bool) : Option Char → List Char → Bool
  | prev, [] => bOK prev && m []
  | prev, c :: rest => (bOK prev && m (c :: rest)) || searchWBFrom m (some c) rest

/-- Top-level word-boundary-anchored search. -/
def searchWB (m : List Char → Bool) (l : List Char) : Bool :=
  searchWBFrom m none l

/-- Plain `re.search`: try the position matcher at every position. -/
def searchPos (m : List Char → Bool) : List Char → Bool
  | [] => m []
  | c :: rest => m (c :: rest) || searchPos m rest

def kwDROP : List Char := ['D', 'R', 'O', 'P']
def kwTABLE : List Char := ['T', 'A', 'B', 'L', 'E']
def kwDATABASE : List Char := ['D', 'A', 'T', 'A', 'B', 'A', 'S', 'E']
def kwSCHEMA : List Char := ['S', 'C', 'H', 'E', 'M', 'A']
def kwTRUNCATE : List Char := ['T', 'R', 'U', 'N', 'C', 'A', 'T', 'E']
def kwDELETE : List Char := ['D', 'E', 'L', 'E', 'T', 'E']
def kwFROM : List Char := ['F', 'R', 'O', 'M']
def kwUPDATE : List Char := ['U', 'P', 'D', 'A', 'T', 'E']
def kwSET : List Char := ['S', 'E', 'T']
def kwEXEC : List Char := ['E', 'X', 'E', 'C']
def kwXPCMDSHELL : List Char :=
  ['X', 'P', '_', 'C', 'M', 'D', 'S', 'H', 'E', 'L', 'L']
def kwLIMIT : List Char := ['L', 'I', 'M', 'I', 'T']
def kwSELECT : List Char := ['S', 'E', 'L', 'E', 'C', 'T']
def kwJOIN : List Char := ['J', 'O', 'I', 'N']

/-- Position matcher for `\bDROP\s+TABLE\b` (the leading `\b` is handled
by `searchWB`). -/
def dropTableAt : List Char → Bool :=
  tryDrop kwDROP (spaces1Then (tryDrop kwTABLE wordEndAt))

/-- Position matcher for `\bDROP\s+DATABASE\b`. -/
def dropDatabaseAt : List Char → Bool :=
  tryDrop kwDROP (spaces1Then (tryDrop kwDATABASE wordEndAt))

/-- Position matcher for `\bDROP\s+SCHEMA\b`. -/
def dropSchemaAt : List Char → Bool :=
  tryDrop kwDROP (spaces1Then (tryDrop kwSCHEMA wordEndAt))

/-- Position matcher for `\bTRUNCATE\b`. -/
def truncateAt : List Char → Bool := tryDrop kwTRUNCATE wordEndAt

/-- Position matcher for `\bDELETE\s+FROM\b`. -/
def deleteFromAt : List Char → Bool :=
  tryDrop kwDELETE (spaces1Then (tryDrop kwFROM wordEndAt))

/-- Position matcher for `\s+SET\b`, the tail of the UPDATE pattern. -/
def setTailAt : List Char → Bool := spaces1Then (tryDrop kwSET wordEndAt)

/-- Position matcher for `\bUPDATE\s+.*\s+SET\b`. -/
def updateSetAt : List Char → Bool :=
  tryDrop kwUPDATE (spaces1Then (dotStarThen setTailAt))

/-- The `DESTRUCTIVE_KEYWORDS` table of `QuerySafetyChecker`: pattern text
(as it appears in the Python source) paired with its compiled matcher. -/
def destructiveChecks : List (String × (List Char → Bool)) :=
  [("\\bDROP\\s+TABLE\\b", dropTableAt),
   ("\\bDROP\\s+DATABASE\\b", dropDatabaseAt),
   ("\\bDROP\\s+SCHEMA\\b", dropSchemaAt),
   ("\\bTRUNCATE\\b", truncateAt),
   ("\\bDELETE\\s+FROM\\b", deleteFromAt),
   ("\\bUPDATE\\s+.*\\s+SET\\b", updateSetAt)]

/-- Position matcher for `/\*.*\*/` (block comments; `.` does not match a
newline). -/
def blockCommentAt : List Char → Bool :=
  tryDrop ['/', '*'] (dotStarThen (tryDrop ['*', '/'] (fun _ => true)))

/-- Position matcher for `;\s*DROP`. -/
def semiDropAt : List Char → Bool :=
  tryDrop [';'] (spaces0Then (tryDrop kwDROP (fun _ => true)))

/-- Position matcher for `EXEC\s+`. -/
def execSpaceAt : List Char → Bool :=
  tryDrop kwEXEC (fun l =>
    match l with
    | [] => false
    | c :: _ => isPySpace c)

/-- The `DANGEROUS_PATTERNS` table of `QuerySafetyChecker`: pattern text
paired with the whole-string search it compiles to (all searched with
`re.IGNORECASE` on the original, non-uppercased SQL). -/
def dangerousChecks : List (String × (List Char → Bool)) :=
  [("--", containsSub ['-', '-']),
   ("/\\*.*\\*/", searchPos blockCommentAt),
   (";\\s*DROP", searchPos semiDropAt),
   ("EXEC\\s+", searchPos execSpaceAt),
   ("xp_cmdshell", searchPos (tryDrop kwXPCMDSHELL (fun _ => true)))]

namespace QuerySafetyChecker

/-- Embedding of `QuerySafetyChecker.is_destructive`: search each
destructive pattern in `sql.upper()` and collect one issue message per
matching pattern, in table order. -/
def is_destructive (sql : String) : Bool × List String :=
  let u := upperL sql.data
  let issues :=
    (destructiveChecks.filter (fun pr => searchWB pr.2 u)).map
      (fun pr => "Destructive operation detected: " ++ pr.1)
  (!issues.isEmpty, issues)

/-- Embedding of `QuerySafetyChecker.check_dangerous_patterns`. -/
def check_dangerous_patterns (sql : String) : Bool × List String :=
  let ws :=
    (dangerousChecks.filter (fun pr => pr.2 sql.data)).map
      (fun pr => "Potentially dangerous pattern: " ++ pr.1)
  (!ws.isEmpty, ws)

/-- Embedding of `QuerySafetyChecker.validate_query`.  Returns
`(is_safe, errors, warnings)`.  `not sql.strip()` is emptiness after
stripping whitespace, i.e. all characters are whitespace. -/
def validate_query (sql : String) (allow_destructive : Bool) :
    Bool × List String × List String :=
  let destr := is_destructive sql
  let errs1 := if destr.1 && !allow_destructive then destr.2 else []
  let dang := check_dangerous_patterns sql
  let warnings := if dang.1 then dang.2 else []
  let errs2 := if sql.data.all isPySpace then ["Empty SQL query"] else []
  let errs3 :=
    if sql.data.count ';' > 1 then ["Multiple SQL statements not allowed"]
    else []
  let errors := errs1 ++ errs2 ++ errs3
  (errors.isEmpty, errors, warnings)

end QuerySafetyChecker

/-- Decimal digit character for a value below ten (`str(int)` building
block). -/
def digitChar : Nat → Char
  | 0 => '0'
  | 1 => '1'
  | 2 => '2'
  | 3 => '3'
  | 4 => '4'
  | 5 => '5'
  | 6 => '6'
  | 7 => '7'
  | 8 => '8'
  | _ => '9'

/-- Numeric value of a decimal digit character. -/
def digitVal (c : Char) : Nat := c.toNat - 48

/-- Fuel-driven digit extraction behind `natDigits`; a fuel of `n` is
always enough because the value shrinks by a factor of ten each step. -/
def natDigitsF : Nat → Nat → List Char
  | 0, n => [digitChar n]
  | fuel + 1, n =>
    if n < 10 then [digitChar n]
    else natDigitsF fuel (n / 10) ++ [digitChar (n % 10)]

/-- Embedding of Python's `str(n)` for a non-negative integer: decimal
digits, no leading zeros. -/
def natDigits (n : Nat) : List Char := natDigitsF n n

theorem natDigitsF_small {fuel n : Nat} (h : n < 10) :
    natDigitsF fuel n = [digitChar n] := by
  cases fuel with
  | zero => rfl
  | succ f => simp [natDigitsF, h]

theorem natDigitsF_congr : ∀ (f g n : Nat), n ≤ f → n ≤ g →
    natDigitsF f n = natDigitsF g n := by
  intro f
  induction f with
  | zero =>
    intro g n hf _
    have : n = 0 := by omega
    subst this
    rw [natDigitsF_small (by omega), natDigitsF_small (by omega)]
  | succ f' ih =>
    intro g n hf hg
    by_cases h10 : n < 10
    · rw [natDigitsF_small h10, natDigitsF_small h10]
    · cases g with
      | zero => omega
      | succ g' =>
        have hdiv : n / 10 < n := Nat.div_lt_self (by omega) (by omega)
        simp only [natDigitsF, if_neg h10]
        rw [ih g' (n / 10) (by omega) (by omega)]

/-- Embedding of Python's `int(s)` on a digit string. -/
def digitsToNat (l : List Char) : Nat :=
  l.foldl (fun a c => a * 10 + digitVal c) 0

/-- Matcher for `LIMIT\s+(\d+)` (with `re.IGNORECASE`) at the current
position: the literal, one-or-more whitespace, then a maximal digit run.
Returns the numeric value of the captured digits and the remaining
characters after the match.  `\s+` and `\d+` are greedy, and since a
whitespace character is never a digit the greedy parse is exact. -/
def matchLimitAt (l : List Char) : Option (Nat × List Char) :=
  match dropCI kwLIMIT l with
  | none => none
  | some r1 =>
    match r1 with
    | [] => none
    | c :: r2 =>
      if isPySpace c then
        match r2.dropWhile isPySpace with
        | [] => none
        | d :: r4 =>
          if d.isDigit then
            some (digitsToNat ((d :: r4).takeWhile Char.isDigit),
                  (d :: r4).dropWhile Char.isDigit)
          else none
      else none

/-- Leftmost search for `LIMIT\s+(\d+)`: the value of the first match's
digit group, embedding `re.search(r"LIMIT\s+(\d+)", sql, re.IGNORECASE)`
followed by `int(...)` on the group. -/
def searchLimit : List Char → Option Nat
  | [] => none
  | c :: rest =>
    match matchLimitAt (c :: rest) with
    | some (k, _) => some k
    | none => searchLimit rest

theorem dropCI_length {p l r : List Char} (h : dropCI p l = some r) :
    r.length + p.length = l.length := by
  induction p generalizing l with
  | nil =>
    simp only [dropCI, Option.some.injEq] at h
    simp [← h]
  | cons p ps ih =>
    cases l with
    | nil => simp [dropCI] at h
    | cons c cs =>
      simp only [dropCI] at h
      split at h
      · have := ih h
        simp only [List.length_cons]
        omega
      · exact absurd h (by simp)

theorem length_dropWhile_le' (p : α → Bool) (l : List α) :
    (l.dropWhile p).length ≤ l.length := by
  induction l with
  | nil => simp [List.dropWhile]
  | cons c rest ih =>
    simp only [List.dropWhile]
    split
    · simp only [List.length_cons]
      omega
    · simp

theorem matchLimitAt_length {l after : List Char} {k : Nat}
    (h : matchLimitAt l = some (k, after)) : after.length < l.length := by
  unfold matchLimitAt at h
  split at h
  · exact absurd h (by simp)
  · rename_i r1 hd
    have hlen := dropCI_length hd
    cases r1 with
    | nil => exact absurd h (by simp)
    | cons c r2 =>
      simp only at h
      split at h
      · split at h
        · exact absurd h (by simp)
        · rename_i d r4 hr3
          split at h
          · simp only [Option.some.injEq, Prod.mk.injEq] at h
            have h4 : after = (d :: r4).dropWhile Char.isDigit := h.2.symm
            have l1 : ((d :: r4).dropWhile Char.isDigit).length ≤ r4.length + 1 := by
              simpa using length_dropWhile_le' Char.isDigit (d :: r4)
            have l0 : after.length = ((d :: r4).dropWhile Char.isDigit).length := by
              rw [h4]
            have l2 : (r2.dropWhile isPySpace).length ≤ r2.length :=
              length_dropWhile_le' isPySpace r2
            rw [hr3] at l2
            simp only [List.length_cons] at l2
            simp only [kwLIMIT, List.length_cons, List.length_nil] at hlen
            omega
          · exact absurd h (by simp)
      · exact absurd h (by simp)

/-- The replacement string `f"LIMIT {max_rows}"` used by the rewrite. -/
def replList (n : Nat) : List Char := kwLIMIT ++ (' ' :: natDigits n)

/-- Embedding of `re.sub(r"LIMIT\s+\d+", f"LIMIT {max_rows}", sql,
flags=re.IGNORECASE)`: scan left to right, replace every non-overlapping
match, copy other characters unchanged. -/
def subLimitAux (n : Nat) : List Char → List Char
  | [] => []
  | c :: rest =>
    match hm : matchLimitAt (c :: rest) with
    | some (_, after) => replList n ++ subLimitAux n after
    | none => c :: subLimitAux n rest
termination_by l => l.length
decreasing_by
  · exact matchLimitAt_length hm
  · simp

/-- Embedding of `sql.rstrip(';')`. -/
def rstripSemi (l : List Char) : List Char :=
  (l.reverse.dropWhile (fun c => c == ';')).reverse

/-- The append branch `f"{sql.rstrip(';')}\nLIMIT {max_rows}"`. -/
def appendLimitL (l : List Char) (n : Nat) : List Char :=
  rstripSemi l ++ ('\n' :: replList n)

namespace RowLimitEnforcer

/-- Embedding of `RowLimitEnforcer.add_limit_clause`: if `"LIMIT"` occurs
in the uppercased SQL and `LIMIT\s+(\d+)` matches, keep the SQL when the
existing limit is within `max_rows` and otherwise rewrite every
`LIMIT\s+\d+` occurrence to `LIMIT max_rows`; in all other cases append a
`LIMIT` clause after stripping trailing semicolons. -/
def add_limit_clause (sql : String) (max_rows : Nat) : String :=
  let u := upperL sql.data
  if containsSub kwLIMIT u then
    match searchLimit sql.data with
    | some existing_limit =>
      if existing_limit ≤ max_rows then sql
      else ⟨subLimitAux max_rows sql.data⟩
    | none => ⟨appendLimitL sql.data max_rows⟩
  else ⟨appendLimitL sql.data max_rows⟩

/-- Embedding of `RowLimitEnforcer.estimate_result_size`: the first
`LIMIT` number if present, otherwise `-1` (unknown). -/
def estimate_result_size (sql : String) : Int :=
  match searchLimit sql.data with
  | some k => (k : Int)
  | none => -1

end RowLimitEnforcer

theorem is_destructive_of_match {sql : String}
    (h : ∃ pr ∈ destructiveChecks, searchWB pr.2 (upperL sql.data) = true) :
    (QuerySafetyChecker.is_destructive sql).1 = true ∧
    (QuerySafetyChecker.is_destructive sql).2 ≠ [] := by
  obtain ⟨pr, hmem, hs⟩ := h
  have hpr : pr ∈ destructiveChecks.filter (fun q => searchWB q.2 (upperL sql.data)) :=
    List.mem_filter.mpr ⟨hmem, hs⟩
  have hne := List.ne_nil_of_mem hpr
  constructor
  · simp only [QuerySafetyChecker.is_destructive]
    simp [List.map_eq_nil_iff, hne]
  · simp only [QuerySafetyChecker.is_destructive]
    simp [List.map_eq_nil_iff, hne]

/-- C1: the claim as stated is false: `"SELECT STRUNCATED FROM T"`
contains the substring `TRUNCATE` (after uppercasing), yet
`validate_query(..., allow_destructive=False)` reports it safe with an
empty error list, because the regex `\bTRUNCATE\b` requires word
boundaries. -/
theorem c1_counterexample :
    ("TRUNCATE".data <:+: upperL "SELECT STRUNCATED FROM T".data) ∧
    (QuerySafetyChecker.validate_query "SELECT STRUNCATED FROM T" false).1 = true ∧
    (QuerySafetyChecker.validate_query "SELECT STRUNCATED FROM T" false).2.1 = [] := by
  refine ⟨⟨"SELECT S".data, "D FROM T".data, by decide⟩, by decide, by decide⟩

/-- C1 (amended): for every SQL string in which `DROP TABLE`, `TRUNCATE`
or `DELETE FROM` occurs as a word-boundary-delimited match (uppercased,
words separated by whitespace), validation with `allow_destructive=false`
yields `is_safe=false` and a non-empty error list, and validation of the
same input with `allow_destructive=true` produces no destructive-related
errors (every remaining error is the empty-query or multiple-statement
error). -/
theorem c1_destructive_blocked (sql : String)
    (h : searchWB dropTableAt (upperL sql.data) = true ∨
         searchWB truncateAt (upperL sql.data) = true ∨
         searchWB deleteFromAt (upperL sql.data) = true) :
    (QuerySafetyChecker.validate_query sql false).1 = false ∧
    (QuerySafetyChecker.validate_query sql false).2.1 ≠ [] ∧
    (∀ e ∈ (QuerySafetyChecker.validate_query sql true).2.1,
      e = "Empty SQL query" ∨ e = "Multiple SQL statements not allowed") := by
  have hex : ∃ pr ∈ destructiveChecks, searchWB pr.2 (upperL sql.data) = true := by
    rcases h with h | h | h
    · exact ⟨("\\bDROP\\s+TABLE\\b", dropTableAt), List.Mem.head _, h⟩
    · exact ⟨("\\bTRUNCATE\\b", truncateAt),
        List.Mem.tail _ (List.Mem.tail _ (List.Mem.tail _ (List.Mem.head _))), h⟩
    · exact ⟨("\\bDELETE\\s+FROM\\b", deleteFromAt),
        List.Mem.tail _ (List.Mem.tail _ (List.Mem.tail _ (List.Mem.tail _
          (List.Mem.head _)))), h⟩
  obtain ⟨hfst, hne⟩ := is_destructive_of_match hex
  refine ⟨?_, ?_, ?_⟩
  · simp only [QuerySafetyChecker.validate_query, hfst]
    simp [List.isEmpty_eq_false, hne]
  · simp only [QuerySafetyChecker.validate_query, hfst]
    simp [hne]
  · intro e he
    simp only [QuerySafetyChecker.validate_query] at he
    simp only [Bool.not_true, Bool.and_false, if_neg] at he
    rcases List.mem_append.mp he with h1 | h2
    · rcases List.mem_append.mp h1 with h0 | h1'
      · split at h0 <;> simp_all
      · split at h1' <;> simp_all
    · split at h2 <;> simp_all

/-- C1 witness: a concrete destructive query is rejected. -/
theorem c1_destructive_blocked_witness :
    (QuerySafetyChecker.validate_query "DROP TABLE users" false).1 = false :=
  (c1_destructive_blocked "DROP TABLE users" (Or.inl (by decide))).1

theorem digitChar_isDigit (n : Nat) : (digitChar n).isDigit = true := by
  unfold digitChar
  split <;> decide

theorem digitVal_digitChar {n : Nat} (h : n < 10) :
    digitVal (digitChar n) = n := by
  interval_cases n <;> decide

theorem natDigits_lt {n : Nat} (h : n < 10) : natDigits n = [digitChar n] :=
  natDigitsF_small h

theorem natDigits_ge {n : Nat} (h : ¬ n < 10) :
    natDigits n = natDigits (n / 10) ++ [digitChar (n % 10)] := by
  unfold natDigits
  cases hn : n with
  | zero => omega
  | succ m =>
    simp only [natDigitsF, if_neg (hn ▸ h)]
    rw [natDigitsF_congr m ((m + 1) / 10) ((m + 1) / 10)
      (by have := Nat.div_lt_self (show 0 < m + 1 by omega)
            (show 1 < 10 by omega); omega) le_rfl]

theorem natDigits_ne_nil (n : Nat) : natDigits n ≠ [] := by
  by_cases h : n < 10
  · rw [natDigits_lt h]
    simp
  · rw [natDigits_ge h]
    simp

theorem mem_natDigits_isDigit (n : Nat) :
    ∀ c ∈ natDigits n, c.isDigit = true := by
  induction n using Nat.strong_induction_on with
  | _ n ih =>
    by_cases h : n < 10
    · rw [natDigits_lt h]
      intro c hc
      simp only [List.mem_singleton] at hc
      subst hc
      exact digitChar_isDigit n
    · rw [natDigits_ge h]
      intro c hc
      rcases List.mem_append.mp hc with h1 | h2
      · exact ih (n / 10) (Nat.div_lt_self (by omega) (by omega)) c h1
      · simp only [List.mem_singleton] at h2
        subst h2
        exact digitChar_isDigit (n % 10)

theorem digitsToNat_append_singleton (l : List Char) (c : Char) :
    digitsToNat (l ++ [c]) = digitsToNat l * 10 + digitVal c := by
  simp [digitsToNat, List.foldl_append]

theorem digitsToNat_natDigits (n : Nat) : digitsToNat (natDigits n) = n := by
  induction n using Nat.strong_induction_on with
  | _ n ih =>
    by_cases h : n < 10
    · rw [natDigits_lt h]
      simp only [digitsToNat, List.foldl_cons, List.foldl_nil, Nat.zero_mul,
        Nat.zero_add]
      exact digitVal_digitChar h
    · rw [natDigits_ge h, digitsToNat_append_singleton,
        ih (n / 10) (Nat.div_lt_self (by omega) (by omega)),
        digitVal_digitChar (Nat.mod_lt n (by omega))]
      omega

theorem natDigits_injective {a b : Nat} (h : natDigits a = natDigits b) :
    a = b := by
  have := congrArg digitsToNat h
  rwa [digitsToNat_natDigits, digitsToNat_natDigits] at this

theorem natDigits_length_upper (n : Nat) :
    n < 10 ^ (natDigits n).length := by
  induction n using Nat.strong_induction_on with
  | _ n ih =>
    by_cases h : n < 10
    · rw [natDigits_lt h]
      simpa using h
    · rw [natDigits_ge h]
      have hrec := ih (n / 10) (Nat.div_lt_self (by omega) (by omega))
      simp only [List.length_append, List.length_singleton]
      have : 10 ^ ((natDigits (n / 10)).length + 1) =
          10 ^ (natDigits (n / 10)).length * 10 := by
        ring
      rw [this]
      have hmod := Nat.mod_lt n (show 0 < 10 by omega)
      have hdm := Nat.div_add_mod n 10
      omega

theorem natDigits_length_lower {n : Nat} (h : 1 ≤ n) :
    10 ^ ((natDigits n).length - 1) ≤ n := by
  induction n using Nat.strong_induction_on with
  | _ n ih =>
    by_cases h10 : n < 10
    · rw [natDigits_lt h10]
      simpa using h
    · rw [natDigits_ge h10]
      have hq : 1 ≤ n / 10 := by
        have h1 := Nat.div_add_mod n 10
        have h2 := Nat.mod_lt n (show 0 < 10 by omega)
        omega
      have hrec := ih (n / 10) (Nat.div_lt_self (by omega) (by omega)) hq
      simp only [List.length_append, List.length_singleton]
      have hne := natDigits_ne_nil (n / 10)
      have hlen : 1 ≤ (natDigits (n / 10)).length := by
        cases hl : natDigits (n / 10) with
        | nil => exact absurd hl hne
        | cons x xs => simp
      have heq : (natDigits (n / 10)).length + 1 - 1 =
          ((natDigits (n / 10)).length - 1) + 1 := by omega
      rw [heq, pow_succ]
      have hdm := Nat.div_add_mod n 10
      have : 10 ^ ((natDigits (n / 10)).length - 1) * 10 ≤ (n / 10) * 10 :=
        Nat.mul_le_mul_right 10 hrec
      omega

theorem natDigits_prefix_le {k n : Nat} (h : natDigits k <+: natDigits n) :
    k ≤ n := by
  have hlen := h.length_le
  rcases Nat.lt_or_ge (natDigits k).length (natDigits n).length with hlt | hge
  · have hup := natDigits_length_upper k
    have hnlen : 2 ≤ (natDigits n).length := by
      have hkne := natDigits_ne_nil k
      have : 1 ≤ (natDigits k).length := by
        cases hl : natDigits k with
        | nil => exact absurd hl hkne
        | cons x xs => simp
      omega
    have hn10 : 10 ≤ n := by
      by_contra hcon
      have : natDigits n = [digitChar n] := natDigits_lt (by omega)
      rw [this] at hnlen
      simp at hnlen
    have hlow := natDigits_length_lower (show 1 ≤ n by omega)
    have hpow : 10 ^ (natDigits k).length ≤ 10 ^ ((natDigits n).length - 1) :=
      Nat.pow_le_pow_right (by omega) (by omega)
    omega
  · have heq : (natDigits k).length = (natDigits n).length := by omega
    have := natDigits_injective (h.eq_of_length heq)
    omega

theorem isDigit_not_space {c : Char} (h : c.isDigit = true) :
    isPySpace c = false := by
  cases hc : isPySpace c
  · rfl
  · exfalso
    simp only [isPySpace, Bool.or_eq_true, beq_iff_eq] at hc
    rcases hc with ((((rfl | rfl) | rfl) | rfl) | rfl) | rfl <;>
      exact absurd h (by simp)

theorem isDigit_ne_L {c : Char} (h : c.isDigit = true) : c ≠ 'L' := by
  rintro rfl
  exact absurd h (by simp)

theorem subLimitAux_nil (n : Nat) : subLimitAux n [] = [] := by
  rw [subLimitAux]

theorem subLimitAux_cons_some {n k₀ : Nat} {c : Char} {rest after : List Char}
    (h : matchLimitAt (c :: rest) = some (k₀, after)) :
    subLimitAux n (c :: rest) = replList n ++ subLimitAux n after := by
  rw [subLimitAux]
  split
  · rename_i k' after' heq
    rw [h] at heq
    simp only [Option.some.injEq, Prod.mk.injEq] at heq
    rw [heq.2]
  · rename_i heq
    rw [h] at heq
    exact absurd heq (by simp)

theorem subLimitAux_cons_none {n : Nat} {c : Char} {rest : List Char}
    (h : matchLimitAt (c :: rest) = none) :
    subLimitAux n (c :: rest) = c :: subLimitAux n rest := by
  rw [subLimitAux]
  split
  · rename_i k' after' heq
    rw [h] at heq
    exact absurd heq (by simp)
  · rfl

theorem dropWhile_eq_cons_head_false {α : Type} {p : α → Bool} :
    ∀ {l : List α} {d : α} {ds : List α},
      l.dropWhile p = d :: ds → p d = false := by
  intro l
  induction l with
  | nil => intro d ds h; simp [List.dropWhile] at h
  | cons a as ih =>
    intro d ds h
    by_cases ha : p a
    · rw [List.dropWhile_cons_of_pos ha] at h
      exact ih h
    · rw [List.dropWhile_cons_of_neg ha] at h
      cases h
      simpa using ha

theorem matchLimitAt_after_shape {l after : List Char} {k : Nat}
    (h : matchLimitAt l = some (k, after)) :
    after = [] ∨ ∃ d ds, after = d :: ds ∧ d.isDigit = false := by
  unfold matchLimitAt at h
  split at h
  · exact absurd h (by simp)
  · rename_i r1 hd
    cases r1 with
    | nil => exact absurd h (by simp)
    | cons c r2 =>
      simp only at h
      split at h
      · split at h
        · exact absurd h (by simp)
        · rename_i d r4 hr3
          split at h
          · simp only [Option.some.injEq, Prod.mk.injEq] at h
            have h4 : after = (d :: r4).dropWhile Char.isDigit := h.2.symm
            cases hdw : (d :: r4).dropWhile Char.isDigit with
            | nil => exact Or.inl (h4.trans hdw)
            | cons e es =>
              exact Or.inr ⟨e, es, h4.trans hdw,
                dropWhile_eq_cons_head_false hdw⟩
          · exact absurd h (by simp)
      · exact absurd h (by simp)

theorem dropCI_upper {p l r : List Char} (h : dropCI p l = some r) :
    upperL l = p ++ upperL r := by
  induction p generalizing l with
  | nil =>
    simp only [dropCI, Option.some.injEq] at h
    simp [← h]
  | cons q qs ih =>
    cases l with
    | nil => simp [dropCI] at h
    | cons c cs =>
      simp only [dropCI] at h
      split at h
      · rename_i hc
        have := ih h
        simp only [upperL, List.map_cons] at this ⊢
        rw [this, hc]
        rfl
      · exact absurd h (by simp)

theorem hasPrefixL_append_self (p t : List Char) :
    hasPrefixL p (p ++ t) = true := by
  induction p with
  | nil => rfl
  | cons a as ih => simp [hasPrefixL, ih]

theorem containsSub_append_self {p : List Char} (t : List Char)
    (hp : p ≠ []) : containsSub p (p ++ t) = true := by
  cases p with
  | nil => exact absurd rfl hp
  | cons a as =>
    show (hasPrefixL (a :: as) (a :: (as ++ t)) ||
      containsSub (a :: as) (as ++ t)) = true
    have h2 : hasPrefixL (a :: as) (a :: (as ++ t)) = true :=
      hasPrefixL_append_self (a :: as) t
    rw [h2]
    simp

theorem matchLimitAt_dropCI {l : List Char} {k : Nat} {after : List Char}
    (h : matchLimitAt l = some (k, after)) :
    ∃ r1, dropCI kwLIMIT l = some r1 := by
  unfold matchLimitAt at h
  split at h
  · exact absurd h (by simp)
  · rename_i r1 hd
    exact ⟨r1, hd⟩

theorem searchLimit_some_contains {l : List Char} {k : Nat}
    (h : searchLimit l = some k) :
    containsSub kwLIMIT (upperL l) = true := by
  induction l with
  | nil => simp [searchLimit] at h
  | cons c rest ih =>
    simp only [searchLimit] at h
    split at h
    · rename_i k' after heq
      obtain ⟨r1, hd⟩ := matchLimitAt_dropCI heq
      have hu := dropCI_upper hd
      rw [hu]
      exact containsSub_append_self _ (by simp [kwLIMIT])
    · have := ih h
      simp only [upperL, List.map_cons]
      simp only [containsSub, Bool.or_eq_true]
      exact Or.inr (by simpa [upperL] using this)

theorem replList_cons (n : Nat) :
    replList n = 'L' :: ('I' :: 'M' :: 'I' :: 'T' :: ' ' :: natDigits n) := rfl

theorem replList_ne_nil (n : Nat) : replList n ≠ [] := by
  rw [replList_cons]
  simp

theorem replList_eq_append (n : Nat) :
    replList n = (kwLIMIT ++ [' ']) ++ natDigits n := by
  simp [replList]

theorem mem_replList_tail_ne_L {n : Nat} {c : Char}
    (h : c ∈ ('I' :: 'M' :: 'I' :: 'T' :: ' ' :: natDigits n)) : c ≠ 'L' := by
  simp only [List.mem_cons] at h
  rcases h with rfl | rfl | rfl | rfl | rfl | hm
  · decide
  · decide
  · decide
  · decide
  · decide
  · exact isDigit_ne_L (mem_natDigits_isDigit n c hm)

theorem dropCI_kwLIMIT (t : List Char) :
    dropCI kwLIMIT (kwLIMIT ++ t) = some t := rfl

theorem matchLimitAt_replList (k : Nat) (t : List Char) :
    matchLimitAt (replList k ++ t) ≠ none := by
  obtain ⟨d, ds, hd⟩ : ∃ d ds, natDigits k = d :: ds := by
    cases hnd : natDigits k with
    | nil => exact absurd hnd (natDigits_ne_nil k)
    | cons d ds => exact ⟨d, ds, rfl⟩
  have hdig : d.isDigit = true := mem_natDigits_isDigit k d (by rw [hd]; simp)
  have hsp : isPySpace d = false := isDigit_not_space hdig
  have he : replList k ++ t = kwLIMIT ++ (' ' :: (natDigits k ++ t)) := by
    simp [replList]
  have hdw : (natDigits k ++ t).dropWhile isPySpace = d :: (ds ++ t) := by
    rw [hd]
    rw [List.cons_append]
    exact List.dropWhile_cons_of_neg (by simp [hsp])
  have hspace : isPySpace ' ' = true := rfl
  rw [he]
  unfold matchLimitAt
  rw [dropCI_kwLIMIT]
  simp only [hspace, if_true, hdw, hdig]
  simp

theorem subLimitAux_head_not_digit {N : Nat} {m : List Char}
    (hm : m = [] ∨ ∃ a as, m = a :: as ∧ a.isDigit = false) :
    ∀ {d : Char} {ds : List Char},
      subLimitAux N m = d :: ds → d.isDigit = false := by
  intro d ds h
  rcases hm with rfl | ⟨a, as, rfl, ha⟩
  · rw [subLimitAux_nil] at h
    cases h
  · cases hmt : matchLimitAt (a :: as) with
    | some p =>
      obtain ⟨k0, after⟩ := p
      rw [subLimitAux_cons_some hmt] at h
      rw [replList_cons] at h
      simp only [List.cons_append] at h
      injection h with h1 _
      rw [← h1]
      decide
    | none =>
      rw [subLimitAux_cons_none hmt] at h
      injection h with h1 _
      rw [← h1]
      exact ha

theorem noL_prefix {N : Nat} : ∀ (m : List Char) {s : List Char},
    (∀ c ∈ s, c ≠ 'L') → s <+: subLimitAux N m → s <+: m := by
  intro m
  induction m with
  | nil =>
    intro s _ h
    rw [subLimitAux_nil] at h
    exact h
  | cons c rest ih =>
    intro s hs h
    cases hmt : matchLimitAt (c :: rest) with
    | some p =>
      obtain ⟨k0, after⟩ := p
      rw [subLimitAux_cons_some hmt] at h
      cases s with
      | nil => exact List.nil_prefix
      | cons x s' =>
        have hx : x = 'L' := by
          rw [replList_cons] at h
          simp only [List.cons_append] at h
          exact (List.cons_prefix_cons.mp h).1
        exact absurd hx (hs x (by simp))
    | none =>
      rw [subLimitAux_cons_none hmt] at h
      cases s with
      | nil => exact List.nil_prefix
      | cons x s' =>
        have hx := List.cons_prefix_cons.mp h
        have hih := ih (fun e he => hs e (by simp [he])) hx.2
        exact List.cons_prefix_cons.mpr ⟨hx.1, hih⟩

theorem suffix_append_cases {α : Type} : ∀ {a b s : List α},
    s <:+ a ++ b → s <:+ b ∨ ∃ t, t <:+ a ∧ t ≠ [] ∧ s = t ++ b := by
  intro a
  induction a with
  | nil =>
    intro b s h
    exact Or.inl (by simpa using h)
  | cons x a' ih =>
    intro b s h
    rw [List.cons_append] at h
    rcases List.suffix_cons_iff.mp h with heq | h2
    · right
      exact ⟨x :: a', List.suffix_rfl, by simp, by rw [heq, List.cons_append]⟩
    · rcases ih h2 with hb | ⟨t, ht, htne, rfl⟩
      · exact Or.inl hb
      · right
        exact ⟨t, List.suffix_cons_iff.mpr (Or.inr ht), htne, rfl⟩

theorem prefix_append_cases {α : Type} : ∀ {y z x : List α},
    x <+: y ++ z → x <+: y ∨ ∃ x', x = y ++ x' ∧ x' <+: z := by
  intro y
  induction y with
  | nil =>
    intro z x h
    exact Or.inr ⟨x, by simp, by simpa using h⟩
  | cons a y' ih =>
    intro z x h
    cases x with
    | nil => exact Or.inl List.nil_prefix
    | cons b x'' =>
      rw [List.cons_append] at h
      have hbc := List.cons_prefix_cons.mp h
      rcases ih hbc.2 with h1 | ⟨x', rfl, hx'⟩
      · exact Or.inl (List.cons_prefix_cons.mpr ⟨hbc.1, h1⟩)
      · refine Or.inr ⟨x', ?_, hx'⟩
        rw [hbc.1]
        rfl

theorem subLimitAux_contains_repl {N : Nat} : ∀ {l : List Char} {k : Nat},
    searchLimit l = some k → replList N <:+: subLimitAux N l := by
  intro l
  induction l with
  | nil =>
    intro k h
    simp [searchLimit] at h
  | cons c rest ih =>
    intro k h
    simp only [searchLimit] at h
    split at h
    · rename_i k' after heq
      rw [subLimitAux_cons_some heq]
      exact ⟨[], subLimitAux N after, by simp⟩
    · rename_i heq
      rw [subLimitAux_cons_none heq]
      exact List.infix_cons (ih h)

theorem subLimitAux_no_large {N k : Nat} (hk : N < k) :
    ∀ (n : Nat) (l : List Char), l.length ≤ n →
      ∀ s, s <:+ subLimitAux N l → ¬ replList k <+: s := by
  intro n
  induction n with
  | zero =>
    intro l hl s hs hpre
    have hnil : l = [] := List.eq_nil_of_length_eq_zero (by omega)
    subst hnil
    rw [subLimitAux_nil] at hs
    rw [List.suffix_nil.mp hs] at hpre
    exact replList_ne_nil k (List.prefix_nil.mp hpre)
  | succ n ih =>
    intro l hl s hs hpre
    cases l with
    | nil =>
      rw [subLimitAux_nil] at hs
      rw [List.suffix_nil.mp hs] at hpre
      exact replList_ne_nil k (List.prefix_nil.mp hpre)
    | cons c rest =>
      cases hmt : matchLimitAt (c :: rest) with
      | some p =>
        obtain ⟨k0, after⟩ := p
        rw [subLimitAux_cons_some hmt] at hs
        rcases suffix_append_cases hs with hO | ⟨t, ht, htne, rfl⟩
        · have hlen := matchLimitAt_length hmt
          simp only [List.length_cons] at hl hlen
          exact ih after (by omega) s hO hpre
        · by_cases hteq : t = replList N
          · subst hteq
            have hpre2 : (kwLIMIT ++ [' ']) ++ natDigits k <+:
                (kwLIMIT ++ [' ']) ++ (natDigits N ++ subLimitAux N after) := by
              rw [← replList_eq_append, ← List.append_assoc, ← replList_eq_append]
              exact hpre
            have hdk := (List.prefix_append_right_inj _).mp hpre2
            rcases prefix_append_cases hdk with hd1 | ⟨x', hx, hx'⟩
            · exact absurd (natDigits_prefix_le hd1) (by omega)
            · cases x' with
              | nil =>
                rw [List.append_nil] at hx
                have := natDigits_injective hx
                omega
              | cons d ds =>
                have hdig : d.isDigit = true := by
                  apply mem_natDigits_isDigit k
                  rw [hx]
                  simp
                cases hsub : subLimitAux N after with
                | nil =>
                  rw [hsub] at hx'
                  simp at hx'
                | cons e es =>
                  rw [hsub] at hx'
                  have hde := (List.cons_prefix_cons.mp hx').1
                  have hnd : e.isDigit = false :=
                    subLimitAux_head_not_digit (matchLimitAt_after_shape hmt) hsub
                  rw [hde] at hdig
                  rw [hdig] at hnd
                  cases hnd
          · have ht2 : t <:+ ('I' :: 'M' :: 'I' :: 'T' :: ' ' :: natDigits N) := by
              have ht' := ht
              rw [replList_cons] at ht'
              rcases List.suffix_cons_iff.mp ht' with heq | h2
              · exact absurd (by rw [heq, ← replList_cons]) hteq
              · exact h2
            cases t with
            | nil => exact htne rfl
            | cons d t' =>
              have hdmem : d ∈ ('I' :: 'M' :: 'I' :: 'T' :: ' ' :: natDigits N) :=
                ht2.subset (by simp)
              have hdL : d ≠ 'L' := mem_replList_tail_ne_L hdmem
              have hpre3 : replList k <+: d :: (t' ++ subLimitAux N after) := by
                simpa using hpre
              rw [replList_cons] at hpre3
              exact hdL ((List.cons_prefix_cons.mp hpre3).1).symm
      | none =>
        rw [subLimitAux_cons_none hmt] at hs
        rcases List.suffix_cons_iff.mp hs with heq | hO
        · rw [heq] at hpre
          rw [replList_cons] at hpre
          have h1 := List.cons_prefix_cons.mp hpre
          have htail : ('I' :: 'M' :: 'I' :: 'T' :: ' ' :: natDigits k) <+: rest :=
            noL_prefix rest (fun x hx => mem_replList_tail_ne_L hx) h1.2
          have hrep : replList k <+: c :: rest := by
            rw [replList_cons]
            exact List.cons_prefix_cons.mpr ⟨h1.1, htail⟩
          obtain ⟨t3, ht3⟩ := hrep
          have hfire := matchLimitAt_replList k t3
          rw [ht3] at hfire
          exact hfire hmt
        · simp only [List.length_cons] at hl
          exact ih rest (by omega) s hO hpre

theorem add_limit_clause_append {sql : String} {N : Nat}
    (h : searchLimit sql.data = none) :
    RowLimitEnforcer.add_limit_clause sql N = ⟨appendLimitL sql.data N⟩ := by
  unfold RowLimitEnforcer.add_limit_clause
  split
  · rename_i existing heq
    rw [h] at heq
    cases heq
  · simp only [ite_self]

theorem add_limit_clause_keep {sql : String} {N k : Nat}
    (h : searchLimit sql.data = some k) (hle : k ≤ N) :
    RowLimitEnforcer.add_limit_clause sql N = sql := by
  unfold RowLimitEnforcer.add_limit_clause
  have hc := searchLimit_some_contains h
  simp only [hc, if_true]
  rw [h]
  simp [hle]

theorem add_limit_clause_rewrite {sql : String} {N k : Nat}
    (h : searchLimit sql.data = some k) (hgt : N < k) :
    RowLimitEnforcer.add_limit_clause sql N = ⟨subLimitAux N sql.data⟩ := by
  unfold RowLimitEnforcer.add_limit_clause
  have hc := searchLimit_some_contains h
  simp only [hc, if_true]
  rw [h]
  simp [Nat.not_le.mpr hgt]

/-- C3: the row-limit rewrite of `RowLimitEnforcer.add_limit_clause`:
when `LIMIT\s+(\d+)` has no match, the result ends in `LIMIT N`; when the
first match has value `k ≤ N`, the SQL is returned unchanged; when the
first match has value `k > N`, the result contains `LIMIT N` and does not
contain `LIMIT k` (both as the exact text `LIMIT` + single space +
decimal digits). -/
theorem c3_row_limit_rewrite (sql : String) (N : Nat) (hN : 0 < N) :
    (searchLimit sql.data = none →
      replList N <:+ (RowLimitEnforcer.add_limit_clause sql N).data) ∧
    (∀ k, searchLimit sql.data = some k → k ≤ N →
      RowLimitEnforcer.add_limit_clause sql N = sql) ∧
    (∀ k, searchLimit sql.data = some k → N < k →
      replList N <:+: (RowLimitEnforcer.add_limit_clause sql N).data ∧
      ¬ replList k <:+: (RowLimitEnforcer.add_limit_clause sql N).data) := by
  refine ⟨?_, ?_, ?_⟩
  · intro h
    rw [add_limit_clause_append h]
    show replList N <:+ appendLimitL sql.data N
    exact ⟨rstripSemi sql.data ++ ['\n'], by simp [appendLimitL]⟩
  · intro k h hle
    exact add_limit_clause_keep h hle
  · intro k h hgt
    rw [add_limit_clause_rewrite h hgt]
    constructor
    · exact subLimitAux_contains_repl h
    · intro hinf
      rcases List.infix_iff_prefix_suffix.mp hinf with ⟨t, hpre, hsuf⟩
      exact subLimitAux_no_large hgt sql.data.length sql.data le_rfl t hsuf hpre

/-- C3 witness: `LIMIT 99` with `max_rows = 10` is rewritten to a string
containing `LIMIT 10` and no longer containing `LIMIT 99`. -/
theorem c3_row_limit_rewrite_witness :
    replList 10 <:+:
      (RowLimitEnforcer.add_limit_clause "SELECT * FROM t LIMIT 99" 10).data ∧
    ¬ replList 99 <:+:
      (RowLimitEnforcer.add_limit_clause "SELECT * FROM t LIMIT 99" 10).data :=
  (c3_row_limit_rewrite "SELECT * FROM t LIMIT 99" 10 (by decide)).2.2 99
    (by decide) (by decide)

def kwWITH : List Char := ['W', 'I', 'T', 'H']
def kwGROUPBY : List Char := ['G', 'R', 'O', 'U', 'P', ' ', 'B', 'Y']
def kwORDERBY : List Char := ['O', 'R', 'D', 'E', 'R', ' ', 'B', 'Y']
def kwDISTINCT : List Char := ['D', 'I', 'S', 'T', 'I', 'N', 'C', 'T']

/-- The `window_functions` table of `_estimate_cost`. -/
def windowFns : List (List Char) :=
  [['R', 'O', 'W', '_', 'N', 'U', 'M', 'B', 'E', 'R'],
   ['R', 'A', 'N', 'K'],
   ['D', 'E', 'N', 'S', 'E', '_', 'R', 'A', 'N', 'K'],
   ['L', 'A', 'G'],
   ['L', 'E', 'A', 'D']]

/-- Embedding of `str.strip()` (ASCII whitespace at both ends). -/
def stripWs (l : List Char) : List Char :=
  ((l.dropWhile isPySpace).reverse.dropWhile isPySpace).reverse

/-- Embedding of the `SQLQuery` pydantic model, restricted to the fields
read or written by the validation pipeline (`sql`, `tables_used`,
`confidence_score`); Python floats become `ℚ`. -/
structure SQLQuery where
  sql : String
  tables_used : List String
  confidence_score : Option ℚ
deriving DecidableEq

/-- Embedding of the `ValidationResult` pydantic model. -/
structure ValidationResult where
  is_valid : Bool
  errors : List String
  warnings : List String
  estimated_cost : Option ℚ
  safe_to_execute : Bool
deriving DecidableEq

namespace ValidationAgent

/-- Embedding of `ValidationAgent._check_syntax` (named without the word
to avoid clashing with Lean keywords): uppercase and strip, require a
`SELECT`/`WITH` start, balanced parentheses counts, and a `FROM` for
`SELECT` statements. -/
def basic_shape_check (sql : String) : Bool :=
  let sus := stripWs (upperL sql.data)
  if !(hasPrefixL kwSELECT sus || hasPrefixL kwWITH sus) then false
  else if sql.data.count '(' ≠ sql.data.count ')' then false
  else if hasPrefixL kwSELECT sus && !containsSub kwFROM sus then false
  else true

/-- `sql_upper.count("JOIN")` of `_estimate_cost`. -/
def joinCount (sql : String) : Nat := countSub kwJOIN (upperL sql.data)

/-- `sql_upper.count("SELECT")` of `_estimate_cost`. -/
def selectCount (sql : String) : Nat := countSub kwSELECT (upperL sql.data)

/-- `"GROUP BY" in sql_upper` of `_estimate_cost`. -/
def hasGroupBy (sql : String) : Bool := containsSub kwGROUPBY (upperL sql.data)

/-- `"ORDER BY" in sql_upper and "LIMIT" not in sql_upper`. -/
def hasOrderByNoLimit (sql : String) : Bool :=
  containsSub kwORDERBY (upperL sql.data) &&
    !containsSub kwLIMIT (upperL sql.data)

/-- `"DISTINCT" in sql_upper`. -/
def hasDistinct (sql : String) : Bool := containsSub kwDISTINCT (upperL sql.data)

/-- The window-function loop of `_estimate_cost` (adds its weight once and
breaks on the first hit). -/
def hasWindowFn (sql : String) : Bool :=
  windowFns.any (fun f => containsSub f (upperL sql.data))

/-- Embedding of `ValidationAgent._estimate_cost`.  The subquery term is
`count("SELECT") - 1` as a signed integer — the Python code applies no
floor, so this term is `-1` when the SQL contains no `SELECT`. -/
def estimate_cost (sql : String) (tables_used : List String) : ℚ :=
  let cost : ℚ :=
    (tables_used.length : ℚ) * (1 / 10) +
    (joinCount sql : ℚ) * (3 / 20) +
    (((selectCount sql : ℤ) - 1 : ℤ) : ℚ) * (1 / 5) +
    (if hasGroupBy sql then (3 / 20 : ℚ) else 0) +
    (if hasOrderByNoLimit sql then (1 / 10 : ℚ) else 0) +
    (if hasDistinct sql then (1 / 10 : ℚ) else 0) +
    (if hasWindowFn sql then (3 / 20 : ℚ) else 0)
  min cost 1

/-- The low-confidence warning message; the Python `{score:.2f}` float
formatting is abstracted to the exact rational rendering. -/
def lowConfidenceWarning (c : ℚ) : String :=
  "Low confidence score (" ++ toString c ++ "). Query may not be accurate."

/-- The row-limit warning message. -/
def rowLimitWarning (max_rows : Nat) : String :=
  "Query may return many rows. Limit will be enforced (" ++
    toString max_rows ++ " rows)"

/-- Embedding of `ValidationAgent.validate_query` (the non-exceptional
path; the agent's own code raises no exceptions).  Returns the candidate
query — whose `sql` field line 61 mutates in place — together with the
`ValidationResult`.  The confidence branch mirrors Python truthiness:
`if sql_query.confidence_score and sql_query.confidence_score < 0.6`
skips both `None` and `0.0`. -/
def validate_query (allow_destructive : Bool) (max_rows : Nat)
    (sql_query : SQLQuery) : SQLQuery × ValidationResult :=
  let sql := sql_query.sql
  let syntax_valid := basic_shape_check sql
  let errs_syn : List String :=
    if syntax_valid then [] else ["SQL syntax appears invalid"]
  let safety := QuerySafetyChecker.validate_query sql allow_destructive
  let errors := errs_syn ++ safety.2.1
  let warnings1 := safety.2.2
  let estimated_rows := RowLimitEnforcer.estimate_result_size sql
  let enforce := estimated_rows = -1 ∨ estimated_rows > (max_rows : Int)
  let warnings2 :=
    if enforce then warnings1 ++ [rowLimitWarning max_rows] else warnings1
  let new_sql :=
    if enforce then RowLimitEnforcer.add_limit_clause sql max_rows else sql
  let cost := estimate_cost sql sql_query.tables_used
  let warnings3 :=
    match sql_query.confidence_score with
    | some c =>
      if c ≠ 0 ∧ c < 3 / 5 then warnings2 ++ [lowConfidenceWarning c]
      else warnings2
    | none => warnings2
  let safe_to_execute := errors.isEmpty
  ({ sql_query with sql := new_sql },
   { is_valid := safe_to_execute, errors := errors, warnings := warnings3,
     estimated_cost := some cost, safe_to_execute := safe_to_execute })

end ValidationAgent

/-- C4: the claim as stated is false: `_estimate_cost` applies no floor to
`count("SELECT") - 1`, so for a SQL string with no `SELECT` the result is
negative and outside `[0,1]` (here `-1/5` for the empty SQL and empty
table list). -/
theorem c4_counterexample : ValidationAgent.estimate_cost "" [] < 0 := by
  have hj : ValidationAgent.joinCount "" = 0 := rfl
  have hs : ValidationAgent.selectCount "" = 0 := rfl
  have h1 : ValidationAgent.hasGroupBy "" = false := rfl
  have h2 : ValidationAgent.hasOrderByNoLimit "" = false := rfl
  have h3 : ValidationAgent.hasDistinct "" = false := rfl
  have h4 : ValidationAgent.hasWindowFn "" = false := rfl
  simp only [ValidationAgent.estimate_cost, hj, hs, h1, h2, h3, h4]
  norm_num

/-- C4 (amended): the estimator returns a value within `[0,1]` whenever
the SQL contains at least one `SELECT` keyword (the subquery term is
`count(SELECT)-1` with no floor, so it can push the cost below zero
otherwise), and it is monotonically non-decreasing simultaneously in the
JOIN-occurrence count and in the table-list length when every other
extracted feature agrees. -/
theorem c4_cost_bounds_monotone (sql : String) (tables_used : List String) :
    (1 ≤ ValidationAgent.selectCount sql →
      0 ≤ ValidationAgent.estimate_cost sql tables_used ∧
      ValidationAgent.estimate_cost sql tables_used ≤ 1) ∧
    (∀ (sql₂ : String) (tables₂ : List String),
      ValidationAgent.joinCount sql ≤ ValidationAgent.joinCount sql₂ →
      tables_used.length ≤ tables₂.length →
      ValidationAgent.selectCount sql = ValidationAgent.selectCount sql₂ →
      ValidationAgent.hasGroupBy sql = ValidationAgent.hasGroupBy sql₂ →
      ValidationAgent.hasOrderByNoLimit sql =
        ValidationAgent.hasOrderByNoLimit sql₂ →
      ValidationAgent.hasDistinct sql = ValidationAgent.hasDistinct sql₂ →
      ValidationAgent.hasWindowFn sql = ValidationAgent.hasWindowFn sql₂ →
      ValidationAgent.estimate_cost sql tables_used ≤
        ValidationAgent.estimate_cost sql₂ tables₂) := by
  constructor
  · intro hsel
    constructor
    · simp only [ValidationAgent.estimate_cost]
      apply le_min _ (by norm_num)
      have h1 : (0 : ℚ) ≤ (tables_used.length : ℚ) * (1 / 10) := by positivity
      have h2 : (0 : ℚ) ≤ (ValidationAgent.joinCount sql : ℚ) * (3 / 20) := by
        positivity
      have h3 : (0 : ℚ) ≤
          (((ValidationAgent.selectCount sql : ℤ) - 1 : ℤ) : ℚ) * (1 / 5) := by
        have : (1 : ℤ) ≤ (ValidationAgent.selectCount sql : ℤ) := by
          exact_mod_cast hsel
        have hz : (0 : ℚ) ≤ (((ValidationAgent.selectCount sql : ℤ) - 1 : ℤ) : ℚ) := by
          exact_mod_cast Int.sub_nonneg.mpr this
        positivity
      have h4 : (0 : ℚ) ≤
          (if ValidationAgent.hasGroupBy sql then (3 / 20 : ℚ) else 0) := by
        split <;> norm_num
      have h5 : (0 : ℚ) ≤
          (if ValidationAgent.hasOrderByNoLimit sql then (1 / 10 : ℚ) else 0) := by
        split <;> norm_num
      have h6 : (0 : ℚ) ≤
          (if ValidationAgent.hasDistinct sql then (1 / 10 : ℚ) else 0) := by
        split <;> norm_num
      have h7 : (0 : ℚ) ≤
          (if ValidationAgent.hasWindowFn sql then (3 / 20 : ℚ) else 0) := by
        split <;> norm_num
      linarith
    · simp only [ValidationAgent.estimate_cost]
      exact min_le_right _ _
  · intro sql₂ tables₂ hjc htl hsel hgb hor hdn hw
    simp only [ValidationAgent.estimate_cost]
    rw [hsel, hgb, hor, hdn, hw]
    apply min_le_min _ le_rfl
    have ht : (tables_used.length : ℚ) ≤ (tables₂.length : ℚ) := by
      exact_mod_cast htl
    have hj : (ValidationAgent.joinCount sql : ℚ) ≤
        (ValidationAgent.joinCount sql₂ : ℚ) := by
      exact_mod_cast hjc
    linarith

/-- C4 witness: concrete bounds at a query with one SELECT and one JOIN. -/
theorem c4_cost_bounds_witness :
    0 ≤ ValidationAgent.estimate_cost "SELECT A FROM T JOIN U" ["t", "u"] ∧
    ValidationAgent.estimate_cost "SELECT A FROM T JOIN U" ["t", "u"] ≤ 1 :=
  (c4_cost_bounds_monotone "SELECT A FROM T JOIN U" ["t", "u"]).1 (by decide)

/-- C9: the claim as stated is false: a present confidence score of `0.0`
is below `0.6`, yet Python's `if sql_query.confidence_score and ...`
treats `0.0` as falsy and appends no warning (the warnings list stays
empty for this clean query). -/
theorem c9_counterexample :
    (⟨"SELECT A FROM B LIMIT 5", [], some 0⟩ : SQLQuery).confidence_score =
      some 0 ∧
    ((0 : ℚ) < 3 / 5) ∧
    (ValidationAgent.validate_query false 10
      ⟨"SELECT A FROM B LIMIT 5", [], some 0⟩).2.warnings = [] := by
  refine ⟨rfl, by norm_num, by decide⟩

/-- C9 (amended): for every candidate whose confidence score is present,
non-zero and strictly below `0.6`, validation appends the low-confidence
warning; and the confidence score never affects `is_valid` or
`safe_to_execute` (replacing it by any other value leaves both
unchanged). -/
theorem c9_low_confidence (allow_destructive : Bool) (max_rows : Nat)
    (q : SQLQuery) (c : ℚ) (hc : q.confidence_score = some c) (h0 : c ≠ 0)
    (hlt : c < 3 / 5) :
    ValidationAgent.lowConfidenceWarning c ∈
      (ValidationAgent.validate_query allow_destructive max_rows q).2.warnings ∧
    ∀ c' : Option ℚ,
      (ValidationAgent.validate_query allow_destructive max_rows
        { q with confidence_score := c' }).2.is_valid =
        (ValidationAgent.validate_query allow_destructive max_rows q).2.is_valid ∧
      (ValidationAgent.validate_query allow_destructive max_rows
        { q with confidence_score := c' }).2.safe_to_execute =
        (ValidationAgent.validate_query allow_destructive max_rows
          q).2.safe_to_execute := by
  constructor
  · simp only [ValidationAgent.validate_query]
    simp only [hc]
    rw [if_pos (show c ≠ 0 ∧ c < 3 / 5 from ⟨h0, hlt⟩)]
    exact List.mem_append_right _ (by simp)
  · intro c'
    exact ⟨rfl, rfl⟩

/-- C9 witness: a score of `1/2` gets the warning. -/
theorem c9_low_confidence_witness :
    ValidationAgent.lowConfidenceWarning (1 / 2) ∈
      (ValidationAgent.validate_query false 10
        ⟨"SELECT A FROM B LIMIT 5", [], some (1 / 2)⟩).2.warnings :=
  (c9_low_confidence false 10 ⟨"SELECT A FROM B LIMIT 5", [], some (1 / 2)⟩
    (1 / 2) rfl (by norm_num) (by norm_num)).1

/-- C10: whenever the candidate SQL has no `LIMIT`-with-number clause,
`validate_query` hands back the candidate with its `sql` field rewritten
by `add_limit_clause` — ending in `LIMIT max_rows` — regardless of any
blocking validation errors produced in the same run. -/
theorem c10_sql_mutated_despite_errors (allow_destructive : Bool)
    (max_rows : Nat) (q : SQLQuery) (h : searchLimit q.sql.data = none) :
    (ValidationAgent.validate_query allow_destructive max_rows q).1.sql =
      RowLimitEnforcer.add_limit_clause q.sql max_rows ∧
    replList max_rows <:+
      (ValidationAgent.validate_query allow_destructive max_rows
        q).1.sql.data := by
  have hest : RowLimitEnforcer.estimate_result_size q.sql = -1 := by
    unfold RowLimitEnforcer.estimate_result_size
    rw [h]
  have henf : RowLimitEnforcer.estimate_result_size q.sql = -1 ∨
      RowLimitEnforcer.estimate_result_size q.sql > (max_rows : Int) :=
    Or.inl hest
  constructor
  · simp only [ValidationAgent.validate_query]
    rw [if_pos henf]
  · simp only [ValidationAgent.validate_query]
    rw [if_pos henf]
    rw [add_limit_clause_append h]
    exact ⟨rstripSemi q.sql.data ++ ['\n'], by simp [appendLimitL]⟩

/-- C10 witness: a destructive query fails the safety gate yet is handed
back with `LIMIT 100` appended. -/
theorem c10_sql_mutated_witness :
    (ValidationAgent.validate_query false 100
      ⟨"DELETE FROM users", [], none⟩).1.sql =
      "DELETE FROM users\nLIMIT 100" ∧
    (ValidationAgent.validate_query false 100
      ⟨"DELETE FROM users", [], none⟩).2.safe_to_execute = false :=
  ⟨(c10_sql_mutated_despite_errors false 100
      ⟨"DELETE FROM users", [], none⟩ (by decide)).1.trans (by decide),
   by decide⟩

theorem hasPrefixL_iff {p l : List Char} : hasPrefixL p l = true ↔ p <+: l := by
  induction p generalizing l with
  | nil => simp [hasPrefixL]
  | cons a as ih =>
    cases l with
    | nil => simp [hasPrefixL]
    | cons c cs =>
      simp [hasPrefixL, List.cons_prefix_cons, ih]

theorem suffix_iff_rev {p l : List Char} : p <:+ l ↔ p.reverse <+: l.reverse := by
  constructor
  · rintro ⟨t, rfl⟩
    exact ⟨t.reverse, by simp⟩
  · rintro ⟨t, ht⟩
    refine ⟨t.reverse, ?_⟩
    have h2 := congrArg List.reverse ht
    simpa using h2

theorem hasSuffixL_iff {p l : List Char} : hasSuffixL p l = true ↔ p <:+ l := by
  rw [hasSuffixL, hasPrefixL_iff, suffix_iff_rev]

theorem containsSub_iff {p l : List Char} :
    containsSub p l = true ↔ p <:+: l := by
  induction l with
  | nil =>
    simp only [containsSub, List.isEmpty_eq_true, List.infix_nil]
  | cons c rest ih =>
    simp only [containsSub, Bool.or_eq_true, hasPrefixL_iff, ih,
      List.infix_cons_iff]

/-- Fuel-driven splitter behind `splitWs`; structural so that the kernel
can evaluate it, a fuel of the list length always suffices. -/
def splitWsF : Nat → List Char → List (List Char)
  | _, [] => []
  | 0, _ :: _ => []
  | fuel + 1, c :: rest =>
    if isPySpace c then splitWsF fuel rest
    else
      ((c :: rest).takeWhile (fun d => !isPySpace d)) ::
        splitWsF fuel ((c :: rest).dropWhile (fun d => !isPySpace d))

/-- Embedding of Python's `str.split()` with no argument: split on runs of
whitespace, discarding empty fields. -/
def splitWs (l : List Char) : List (List Char) := splitWsF l.length l

/-- Embedding of the `TableMetadata` pydantic model, restricted to what
the schema agent reads: the table name and its column names (only
`col["name"]` is ever accessed from the column dictionaries). -/
structure TableMetadata where
  name : String
  columns : List String
deriving DecidableEq

/-- A relationship dictionary emitted by `_infer_relationships`. -/
structure Relationship where
  from_table : String
  from_column : String
  to_table : String
  to_column : String
deriving DecidableEq

/-- Fuel-driven scanner behind `pyReplace`. -/
def pyReplaceF (pat rep : List Char) : Nat → List Char → List Char
  | _, [] => []
  | 0, l => l
  | fuel + 1, c :: rest =>
    if pat ≠ [] ∧ hasPrefixL pat (c :: rest) = true then
      rep ++ pyReplaceF pat rep fuel ((c :: rest).drop pat.length)
    else
      c :: pyReplaceF pat rep fuel rest

/-- Embedding of Python's `str.replace(old, new)` for a non-empty `old`:
replace every non-overlapping occurrence, scanning left to right. -/
def pyReplace (l pat rep : List Char) : List Char :=
  pyReplaceF pat rep l.length l

namespace SchemaAgent

/-- Embedding of `SchemaAgent._filter_relevant_tables`: lowercase the
query, split it into a set of words, keep the tables whose lowercase name
— or any lowercase column name — contains one of the words as a
substring; if nothing matches, fall back to the first twenty tables. -/
def filter_relevant_tables (user_query : String)
    (all_tables : List TableMetadata) : List TableMetadata :=
  let query_words := (splitWs (lowerL user_query.data)).eraseDups
  let relevant := all_tables.filter (fun t =>
    query_words.any (fun w => containsSub w (lowerL t.name.data)) ||
    t.columns.any (fun cn =>
      query_words.any (fun w => containsSub w (lowerL cn.data))))
  if relevant.isEmpty then all_tables.take 20 else relevant

/-- Embedding of `SchemaAgent._infer_relationships`: for every column of
every table whose lowercase name ends in `_id` or `id`, compute
`col_name.replace("_id", "").replace("id", "")` — Python `replace`
removes every occurrence, not just the suffix — and emit a relationship
to every table (including the column's own) whose lowercase name equals
that string, with target column literally `id`. -/
def infer_relationships (tables : List TableMetadata) : List Relationship :=
  tables.flatMap (fun t =>
    t.columns.flatMap (fun colName =>
      let col_name := lowerL colName.data
      if hasSuffixL "_id".data col_name || hasSuffixL "id".data col_name then
        let potential_table := pyReplace (pyReplace col_name "_id".data [])
          "id".data []
        tables.filterMap (fun other =>
          if lowerL other.name.data = potential_table then
            some ⟨t.name, colName, other.name, "id"⟩
          else none)
      else []))

end SchemaAgent

/-- C7: the claim as stated is false: the column `identifier_id` ends in
`_id` and stripping that suffix yields `identifier`, the name of another
table in the set, yet no relationship is emitted — the code removes every
occurrence of `_id` and then of `id` (Python `str.replace`), turning
`identifier_id` into `entifier`. -/
theorem c7_counterexample :
    lowerL "identifier_id".data = "identifier".data ++ "_id".data ∧
    SchemaAgent.infer_relationships
      [⟨"orders", ["identifier_id"]⟩, ⟨"identifier", ["id"]⟩] = [] := by
  exact ⟨by decide, by decide⟩

/-- C7 (amended): relationship inference emits a relationship exactly for
the triples (table, column, target) where the lowercase column name ends
in `_id` or `id` and removing every occurrence of `_id` and then every
occurrence of `id` from it yields the lowercase name of the target table
in the same set (possibly the column's own table); each emitted
relationship carries target column literally `id`. -/
theorem c7_infer_relationships_mem (tables : List TableMetadata)
    (r : Relationship) :
    r ∈ SchemaAgent.infer_relationships tables ↔
    ∃ t ∈ tables, ∃ col ∈ t.columns,
      ("_id".data <:+ lowerL col.data ∨ "id".data <:+ lowerL col.data) ∧
      ∃ u ∈ tables,
        lowerL u.name.data =
          pyReplace (pyReplace (lowerL col.data) "_id".data []) "id".data [] ∧
        r = ⟨t.name, col, u.name, "id"⟩ := by
  simp only [SchemaAgent.infer_relationships, List.mem_flatMap]
  constructor
  · rintro ⟨t, ht, col, hcol, hr⟩
    by_cases hend : (hasSuffixL "_id".data (lowerL col.data) ||
        hasSuffixL "id".data (lowerL col.data)) = true
    · rw [if_pos hend] at hr
      simp only [List.mem_filterMap] at hr
      obtain ⟨u, hu, hru⟩ := hr
      refine ⟨t, ht, col, hcol, ?_, u, hu, ?_, ?_⟩
      · rcases Bool.or_eq_true_iff.mp hend with h | h
        · exact Or.inl (hasSuffixL_iff.mp h)
        · exact Or.inr (hasSuffixL_iff.mp h)
      · by_cases heq : lowerL u.name.data =
            pyReplace (pyReplace (lowerL col.data) "_id".data []) "id".data []
        · exact heq
        · rw [if_neg heq] at hru
          cases hru
      · by_cases heq : lowerL u.name.data =
            pyReplace (pyReplace (lowerL col.data) "_id".data []) "id".data []
        · rw [if_pos heq] at hru
          cases hru
          rfl
        · rw [if_neg heq] at hru
          cases hru
    · rw [if_neg hend] at hr
      cases hr
  · rintro ⟨t, ht, col, hcol, hend, u, hu, heq, rfl⟩
    refine ⟨t, ht, col, hcol, ?_⟩
    have hend2 : (hasSuffixL "_id".data (lowerL col.data) ||
        hasSuffixL "id".data (lowerL col.data)) = true := by
      rcases hend with h | h
      · simp [hasSuffixL_iff.mpr h]
      · simp [hasSuffixL_iff.mpr h]
    rw [if_pos hend2]
    simp only [List.mem_filterMap]
    exact ⟨u, hu, by rw [if_pos heq]⟩

theorem filter_eq_single {α : Type} [DecidableEq α] {p : α → Bool}
    {l : List α} {a : α} (h : ∀ x ∈ l, p x = true ↔ x = a)
    (hc : l.count a = 1) : l.filter p = [a] := by
  induction l with
  | nil => simp at hc
  | cons x xs ih =>
    by_cases hxa : x = a
    · subst hxa
      rw [List.count_cons_self] at hc
      have hx0 : xs.count x = 0 := by omega
      have hnm : x ∉ xs := List.count_eq_zero.mp hx0
      have hpx : p x = true := (h x (by simp)).mpr rfl
      rw [List.filter_cons_of_pos hpx]
      have hnil : xs.filter p = [] := by
        rw [List.filter_eq_nil_iff]
        intro y hy hpy
        have := (h y (by simp [hy])).mp hpy
        subst this
        exact hnm hy
      rw [hnil]
    · have hpx : p x = false := by
        cases hp : p x
        · rfl
        · exact absurd ((h x (by simp)).mp hp) hxa
      rw [List.filter_cons_of_neg (by simp [hpx])]
      apply ih
      · intro y hy
        exact h y (by simp [hy])
      · rwa [List.count_cons_of_ne (fun he => hxa he.symm)] at hc

/-- The four query words of `"show me all users"` after lowercasing,
splitting and set construction. -/
def showQueryWords : List (List Char) :=
  [['s', 'h', 'o', 'w'], ['m', 'e'], ['a', 'l', 'l'],
   ['u', 's', 'e', 'r', 's']]

/-- C8: the claim as stated is false: in a catalog `[users, games]` where
no table or column shares the token `users` with the `users` table, the
filter still returns both tables, because the query word `me` occurs as a
substring of `games`. -/
theorem c8_counterexample :
    ¬ ("users".data <:+: lowerL "games".data) ∧
    ¬ ("users".data <:+: lowerL "id".data) ∧
    SchemaAgent.filter_relevant_tables "show me all users"
      [⟨"users", ["id"]⟩, ⟨"games", ["id"]⟩] =
      [⟨"users", ["id"]⟩, ⟨"games", ["id"]⟩] ∧
    ([⟨"users", ["id"]⟩, ⟨"games", ["id"]⟩] : List TableMetadata) ≠
      [⟨"users", ["id"]⟩] := by
  refine ⟨by decide, by decide, by decide, by decide⟩

/-- C8 (amended): filtering `"show me all users"` returns exactly the
table named `users` provided it occurs exactly once and no other table's
name or column name contains any of the query words `show`, `me`, `all`,
`users` as a substring (token-level disjointness from `users` alone is
not enough). -/
theorem c8_users_filter (tables : List TableMetadata) (t : TableMetadata)
    (hmem : t ∈ tables) (hname : t.name = "users")
    (hcount : tables.count t = 1)
    (honly : ∀ u ∈ tables, u ≠ t →
      (∀ w ∈ showQueryWords, ¬ (w <:+: lowerL u.name.data)) ∧
      (∀ cn ∈ u.columns, ∀ w ∈ showQueryWords,
        ¬ (w <:+: lowerL cn.data))) :
    SchemaAgent.filter_relevant_tables "show me all users" tables = [t] := by
  have hwords : (splitWs (lowerL "show me all users".data)).eraseDups =
      showQueryWords := by decide
  have hpred : ∀ x ∈ tables,
      (showQueryWords.any (fun w => containsSub w (lowerL x.name.data)) ||
        x.columns.any (fun cn =>
          showQueryWords.any (fun w => containsSub w (lowerL cn.data)))) = true
        ↔ x = t := by
    intro x hx
    constructor
    · intro hp
      by_contra hxt
      obtain ⟨hn, hcols⟩ := honly x hx hxt
      rcases Bool.or_eq_true_iff.mp hp with h1 | h2
      · obtain ⟨w, hw, hcw⟩ := List.any_eq_true.mp h1
        exact hn w hw (containsSub_iff.mp hcw)
      · obtain ⟨cn, hcn, hcw⟩ := List.any_eq_true.mp h2
        obtain ⟨w, hw, hcw2⟩ := List.any_eq_true.mp hcw
        exact hcols cn hcn w hw (containsSub_iff.mp hcw2)
    · rintro rfl
      apply Bool.or_eq_true_iff.mpr
      left
      apply List.any_eq_true.mpr
      refine ⟨['u', 's', 'e', 'r', 's'], by simp [showQueryWords], ?_⟩
      rw [hname]
      decide
  have hfilter : tables.filter (fun x =>
      (splitWs (lowerL "show me all users".data)).eraseDups.any
        (fun w => containsSub w (lowerL x.name.data)) ||
      x.columns.any (fun cn =>
        (splitWs (lowerL "show me all users".data)).eraseDups.any
          (fun w => containsSub w (lowerL cn.data)))) = [t] := by
    rw [hwords]
    exact filter_eq_single hpred hcount
  simp only [SchemaAgent.filter_relevant_tables]
  rw [hfilter]
  simp

/-- C8 witness: the two-table catalog `[users, trades]`, whose second
table shares no query word, filters down to exactly the users table. -/
theorem c8_users_filter_witness :
    SchemaAgent.filter_relevant_tables "show me all users"
      [⟨"users", ["id"]⟩, ⟨"trx", ["qty"]⟩] = [⟨"users", ["id"]⟩] :=
  c8_users_filter [⟨"users", ["id"]⟩, ⟨"trx", ["qty"]⟩] ⟨"users", ["id"]⟩
    (by simp) rfl (by decide)
    (by
      intro u hu hut
      simp only [List.mem_cons, List.mem_singleton] at hu
      rcases hu with rfl | rfl | h
      · exact absurd rfl hut
      · constructor
        · intro w hw
          fin_cases hw <;> decide
        · intro cn hcn w hw
          simp only [List.mem_singleton] at hcn
          subst hcn
          fin_cases hw <;> decide
      · cases h)

/-- Embedding of the `DatabaseConnector` state relevant to the schema
cache: `self._schema_cache` is a single `Optional[List[TableMetadata]]`
per connector instance (base.py line 20) — it is not keyed by schema
name. -/
structure ConnState where
  schema_cache : Option (List TableMetadata)
deriving DecidableEq

namespace DatabaseConnector

/-- Embedding of `DatabaseConnector.get_all_table_metadata`.  The live
database round trip (`get_tables` plus the per-table
`get_table_metadata` loop with its exception-skipping) is abstracted as
the oracle `fetch` from the requested schema name to the metadata list
it produces.  Returns the metadata, the updated state, and whether a
live fetch happened. -/
def get_all_table_metadata (fetch : Option String → List TableMetadata)
    (st : ConnState) (schema : Option String) (use_cache : Bool) :
    List TableMetadata × ConnState × Bool :=
  match use_cache, st.schema_cache with
  | true, some cached => (cached, st, false)
  | true, none =>
    let metadata_list := fetch schema
    (metadata_list, ⟨some metadata_list⟩, true)
  | false, _ =>
    let metadata_list := fetch schema
    (metadata_list, ⟨some metadata_list⟩, true)

end DatabaseConnector

/-- A fetch oracle distinguishing two schema names, used to exhibit the
cross-schema cache reuse. -/
def fetchTwoSchemas : Option String → List TableMetadata :=
  fun s => if s = some "a" then [⟨"ta", []⟩] else [⟨"tb", []⟩]

/-- C6: the claim as stated is false: the cache is one slot per
connector, not per (data source, schema-name) key.  After fetching
schema `a`, a `use_cache=true` lookup for schema `b` returns the catalog
cached for `a`, not what a live fetch of `b` would return. -/
theorem c6_counterexample :
    (DatabaseConnector.get_all_table_metadata fetchTwoSchemas
      (DatabaseConnector.get_all_table_metadata fetchTwoSchemas ⟨none⟩
        (some "a") true).2.1 (some "b") true).1 = [⟨"ta", []⟩] ∧
    fetchTwoSchemas (some "b") = [⟨"tb", []⟩] ∧
    ([⟨"ta", []⟩] : List TableMetadata) ≠ [⟨"tb", []⟩] := by
  refine ⟨rfl, rfl, by decide⟩

/-- C6 (amended): the connector keeps a single schema catalog per data
source, shared across schema names: once the cache is populated, a
`use_cache=true` lookup returns the cached catalog unchanged regardless
of the requested schema name, leaves the state untouched, and performs
no live metadata fetch. -/
theorem c6_cache_hit (fetch : Option String → List TableMetadata)
    (st : ConnState) (schema : Option String) (cached : List TableMetadata)
    (h : st.schema_cache = some cached) :
    DatabaseConnector.get_all_table_metadata fetch st schema true =
      (cached, st, false) := by
  simp [DatabaseConnector.get_all_table_metadata, h]

/-- C6 witness: a populated cache answers a lookup for a different
schema name without fetching. -/
theorem c6_cache_hit_witness :
    DatabaseConnector.get_all_table_metadata fetchTwoSchemas
      ⟨some [⟨"ta", []⟩]⟩ (some "b") true =
      ([⟨"ta", []⟩], ⟨some [⟨"ta", []⟩]⟩, false) :=
  c6_cache_hit fetchTwoSchemas ⟨some [⟨"ta", []⟩]⟩ (some "b")
    [⟨"ta", []⟩] rfl

/-- Embedding of `QueryStatus`. -/
inductive QueryStatus where
  | pending
  | validating
  | executing
  | success
  | failed
  | timeout
deriving DecidableEq

/-- Embedding of `QueryResult`, restricted to the field the orchestrator
reads (`row_count`). -/
structure QueryResult where
  row_count : Nat
deriving DecidableEq

/-- Embedding of `SchemaContext`, restricted to the fields built by the
schema agent. -/
structure SchemaContext where
  tables : List TableMetadata
  relationships : List Relationship
deriving DecidableEq

/-- Outcome of one agent call as observed by the orchestrator: a
successful `AgentResult` carrying data, a failed `AgentResult` carrying
an error string, or a raised exception (caught by the orchestrator's
outer `try`). -/
inductive AgentOutcome (α : Type) where
  | ok (data : α)
  | err (msg : String)
  | exn (msg : String)
deriving DecidableEq

/-- Embedding of `ChatbotResponse`, restricted to the fields
`process_query` assigns. -/
structure ChatbotResponse where
  status : QueryStatus
  user_query : String
  sql : Option SQLQuery
  validation : Option ValidationResult
  result : Option QueryResult
  chart_html : Option String
  error_message : Option String
deriving DecidableEq

/-- One run's worth of agent behaviour: what each awaited agent call
would produce if reached.  Quantifying theorems over this environment
quantifies over all runs of the pipeline. -/
structure PipelineEnv where
  user_query : String
  include_visualization : Bool
  schemaRes : AgentOutcome SchemaContext
  sqlRes : AgentOutcome SQLQuery
  valRes : AgentOutcome ValidationResult
  execRes : AgentOutcome QueryResult
  vizRes : AgentOutcome (Option String)

/-- The five awaited pipeline stages, recorded in invocation order. -/
inductive Stage where
  | schemaStage
  | sqlStage
  | validationStage
  | executionStage
  | vizStage
deriving DecidableEq

namespace ChatbotOrchestrator

/-- Mark a response as failed with the given error message, as the
orchestrator's early-return branches do. -/
def failWith (r : ChatbotResponse) (msg : String) : ChatbotResponse :=
  { r with status := .failed, error_message := some msg }

/-- Embedding of `ChatbotOrchestrator.process_query` (orchestrator.py
lines 98-240): the straight-line control flow over the five agent calls,
with every `if not result.success: ... return` early exit, the
`safe_to_execute` gate before execution, the optional visualization step
(whose own failure does not fail the pipeline), and the outer
`except Exception` that converts any raised exception into a Failed
response.  The returned list records which stages were invoked. -/
def process_query (env : PipelineEnv) : ChatbotResponse × List Stage :=
  let r0 : ChatbotResponse :=
    { status := .pending, user_query := env.user_query, sql := none,
      validation := none, result := none, chart_html := none,
      error_message := none }
  match env.schemaRes with
  | .exn m =>
    (failWith r0 ("Unexpected error: " ++ m), [.schemaStage])
  | .err e =>
    (failWith r0 ("Failed to get schema: " ++ e), [.schemaStage])
  | .ok _ =>
    match env.sqlRes with
    | .exn m =>
      (failWith r0 ("Unexpected error: " ++ m), [.schemaStage, .sqlStage])
    | .err e =>
      (failWith r0 ("Failed to generate SQL: " ++ e),
       [.schemaStage, .sqlStage])
    | .ok q =>
      let r1 := { r0 with sql := some q }
      match env.valRes with
      | .exn m =>
        (failWith r1 ("Unexpected error: " ++ m),
         [.schemaStage, .sqlStage, .validationStage])
      | .err e =>
        (failWith r1 ("Validation failed: " ++ e),
         [.schemaStage, .sqlStage, .validationStage])
      | .ok v =>
        let r2 := { r1 with validation := some v }
        if v.safe_to_execute = false then
          (failWith r2 ("Query failed safety validation: " ++
             String.intercalate "; " v.errors),
           [.schemaStage, .sqlStage, .validationStage])
        else
          match env.execRes with
          | .exn m =>
            (failWith r2 ("Unexpected error: " ++ m),
             [.schemaStage, .sqlStage, .validationStage, .executionStage])
          | .err e =>
            (failWith r2 ("Execution failed: " ++ e),
             [.schemaStage, .sqlStage, .validationStage, .executionStage])
          | .ok res =>
            let r3 := { r2 with result := some res }
            if env.include_visualization ∧ res.row_count > 0 then
              match env.vizRes with
              | .exn m =>
                (failWith r3 ("Unexpected error: " ++ m),
                 [.schemaStage, .sqlStage, .validationStage,
                  .executionStage, .vizStage])
              | .ok (some html) =>
                ({ r3 with status := .success, chart_html := some html },
                 [.schemaStage, .sqlStage, .validationStage,
                  .executionStage, .vizStage])
              | .ok none =>
                ({ r3 with status := .success },
                 [.schemaStage, .sqlStage, .validationStage,
                  .executionStage, .vizStage])
              | .err _ =>
                ({ r3 with status := .success },
                 [.schemaStage, .sqlStage, .validationStage,
                  .executionStage, .vizStage])
            else
              ({ r3 with status := .success },
               [.schemaStage, .sqlStage, .validationStage, .executionStage])

end ChatbotOrchestrator

theorem string_append_ne_empty {s t : String} (h : s ≠ "") : s ++ t ≠ "" := by
  intro he
  apply h
  obtain ⟨sd⟩ := s
  obtain ⟨td⟩ := t
  have hd : sd ++ td = ([] : List Char) := congrArg String.data he
  have hsd : sd = [] := (List.append_eq_nil.mp hd).1
  rw [hsd]

/-- C2: in every run, the execution stage is invoked only if validation
returned a successful `ValidationResult` with `safe_to_execute = true`;
and whenever validation reports `safe_to_execute = false`, the pipeline
ends with status Failed and the execution stage is never invoked. -/
theorem c2_validation_gates_execution (env : PipelineEnv) :
    (Stage.executionStage ∈ (ChatbotOrchestrator.process_query env).2 →
      ∃ v, env.valRes = AgentOutcome.ok v ∧ v.safe_to_execute = true) ∧
    (∀ v, env.valRes = AgentOutcome.ok v → v.safe_to_execute = false →
      (ChatbotOrchestrator.process_query env).1.status = QueryStatus.failed ∧
      Stage.executionStage ∉ (ChatbotOrchestrator.process_query env).2) := by
  obtain ⟨uq, iv, sres, qres, vres, eres, wres⟩ := env
  have h1 : Stage.executionStage ∉ [Stage.schemaStage] := by decide
  have h2 : Stage.executionStage ∉ [Stage.schemaStage, Stage.sqlStage] := by
    decide
  have h3 : Stage.executionStage ∉
      [Stage.schemaStage, Stage.sqlStage, Stage.validationStage] := by decide
  cases sres with
  | err e =>
    exact ⟨fun h => absurd h h1, fun v' hv hsafe => ⟨rfl, h1⟩⟩
  | exn m =>
    exact ⟨fun h => absurd h h1, fun v' hv hsafe => ⟨rfl, h1⟩⟩
  | ok sc =>
    cases qres with
    | err e =>
      exact ⟨fun h => absurd h h2, fun v' hv hsafe => ⟨rfl, h2⟩⟩
    | exn m =>
      exact ⟨fun h => absurd h h2, fun v' hv hsafe => ⟨rfl, h2⟩⟩
    | ok q =>
      cases vres with
      | err e =>
        exact ⟨fun h => absurd h h3,
          fun v' hv hsafe => AgentOutcome.noConfusion hv⟩
      | exn m =>
        exact ⟨fun h => absurd h h3,
          fun v' hv hsafe => AgentOutcome.noConfusion hv⟩
      | ok v =>
        obtain ⟨vvalid, verrs, vwarns, vcost, vsafe⟩ := v
        cases vsafe with
        | false =>
          constructor
          · intro h
            exact absurd h h3
          · intro v' hv hsafe
            exact ⟨rfl, h3⟩
        | true =>
          constructor
          · intro _
            exact ⟨⟨vvalid, verrs, vwarns, vcost, true⟩, rfl, rfl⟩
          · intro v' hv hsafe
            injection hv with h
            rw [← h] at hsafe
            simp at hsafe

/-- C2 witness: a run whose validation result has
`safe_to_execute = false` fails and never executes. -/
theorem c2_validation_gates_witness :
    (ChatbotOrchestrator.process_query
      { user_query := "q", include_visualization := true,
        schemaRes := .ok ⟨[], []⟩, sqlRes := .ok ⟨"SELECT 1", [], none⟩,
        valRes := .ok ⟨false, ["boom"], [], none, false⟩,
        execRes := .ok ⟨0⟩, vizRes := .ok none }).1.status =
      QueryStatus.failed ∧
    Stage.executionStage ∉ (ChatbotOrchestrator.process_query
      { user_query := "q", include_visualization := true,
        schemaRes := .ok ⟨[], []⟩, sqlRes := .ok ⟨"SELECT 1", [], none⟩,
        valRes := .ok ⟨false, ["boom"], [], none, false⟩,
        execRes := .ok ⟨0⟩, vizRes := .ok none }).2 :=
  (c2_validation_gates_execution
    { user_query := "q", include_visualization := true,
      schemaRes := .ok ⟨[], []⟩, sqlRes := .ok ⟨"SELECT 1", [], none⟩,
      valRes := .ok ⟨false, ["boom"], [], none, false⟩,
      execRes := .ok ⟨0⟩, vizRes := .ok none }).2
    ⟨false, ["boom"], [], none, false⟩ rfl rfl

/-- A stage failure along the run's control path, following the claim's
list: schema retrieval, SQL generation, validation (a failed agent call
or a `safe_to_execute=false` verdict), execution — each counted only
when that stage is reached — or an exception raised by any awaited call,
including the visualization call when it is invoked.  A visualization
call that merely returns failure is not listed by the claim and indeed
does not fail the pipeline. -/
def stageFailed (env : PipelineEnv) : Prop :=
  match env.schemaRes with
  | .err _ => True
  | .exn _ => True
  | .ok _ =>
    match env.sqlRes with
    | .err _ => True
    | .exn _ => True
    | .ok _ =>
      match env.valRes with
      | .err _ => True
      | .exn _ => True
      | .ok v =>
        v.safe_to_execute = false ∨
          (match env.execRes with
           | .err _ => True
           | .exn _ => True
           | .ok res =>
             match env.vizRes with
             | .exn _ => env.include_visualization ∧ res.row_count > 0
             | _ => False)

/-- C5: `process_query` is a total function into responses — the model of
"never raises" — every run ends either with status Success and no error
message or with status Failed and a non-empty error message, and
whenever any stage fails along the run (schema retrieval, SQL
generation, validation including its safety gate, execution, or an
exception raised by any awaited call) the response has status Failed and
a non-empty error message. -/
theorem c5_never_throws (env : PipelineEnv) :
    (((ChatbotOrchestrator.process_query env).1.status = QueryStatus.success ∧
      (ChatbotOrchestrator.process_query env).1.error_message = none) ∨
     ((ChatbotOrchestrator.process_query env).1.status = QueryStatus.failed ∧
      ∃ m, (ChatbotOrchestrator.process_query env).1.error_message = some m ∧
        m ≠ "")) ∧
    (stageFailed env →
      (ChatbotOrchestrator.process_query env).1.status = QueryStatus.failed ∧
      ∃ m, (ChatbotOrchestrator.process_query env).1.error_message = some m ∧
        m ≠ "") := by
  obtain ⟨uq, iv, sres, qres, vres, eres, wres⟩ := env
  cases sres with
  | err e =>
    exact ⟨Or.inr ⟨rfl, _, rfl, string_append_ne_empty (by decide)⟩,
      fun _ => ⟨rfl, _, rfl, string_append_ne_empty (by decide)⟩⟩
  | exn m =>
    exact ⟨Or.inr ⟨rfl, _, rfl, string_append_ne_empty (by decide)⟩,
      fun _ => ⟨rfl, _, rfl, string_append_ne_empty (by decide)⟩⟩
  | ok sc =>
    cases qres with
    | err e =>
      exact ⟨Or.inr ⟨rfl, _, rfl, string_append_ne_empty (by decide)⟩,
        fun _ => ⟨rfl, _, rfl, string_append_ne_empty (by decide)⟩⟩
    | exn m =>
      exact ⟨Or.inr ⟨rfl, _, rfl, string_append_ne_empty (by decide)⟩,
        fun _ => ⟨rfl, _, rfl, string_append_ne_empty (by decide)⟩⟩
    | ok q =>
      cases vres with
      | err e =>
        exact ⟨Or.inr ⟨rfl, _, rfl, string_append_ne_empty (by decide)⟩,
          fun _ => ⟨rfl, _, rfl, string_append_ne_empty (by decide)⟩⟩
      | exn m =>
        exact ⟨Or.inr ⟨rfl, _, rfl, string_append_ne_empty (by decide)⟩,
          fun _ => ⟨rfl, _, rfl, string_append_ne_empty (by decide)⟩⟩
      | ok v =>
        obtain ⟨vvalid, verrs, vwarns, vcost, vsafe⟩ := v
        cases vsafe with
        | false =>
          exact ⟨Or.inr ⟨rfl, _, rfl, string_append_ne_empty (by decide)⟩,
            fun _ => ⟨rfl, _, rfl, string_append_ne_empty (by decide)⟩⟩
        | true =>
          cases eres with
          | err e =>
            exact ⟨Or.inr ⟨rfl, _, rfl, string_append_ne_empty (by decide)⟩,
              fun _ => ⟨rfl, _, rfl, string_append_ne_empty (by decide)⟩⟩
          | exn m =>
            exact ⟨Or.inr ⟨rfl, _, rfl, string_append_ne_empty (by decide)⟩,
              fun _ => ⟨rfl, _, rfl, string_append_ne_empty (by decide)⟩⟩
          | ok res =>
            obtain ⟨rc⟩ := res
            cases iv with
            | false =>
              refine ⟨Or.inl ⟨rfl, rfl⟩, ?_⟩
              intro h
              rcases h with h | h
              · exact absurd h (by simp)
              · cases wres with
                | ok o => exact h.elim
                | err e => exact h.elim
                | exn m => exact absurd h.1 (by simp)
            | true =>
              cases rc with
              | zero =>
                refine ⟨Or.inl ⟨rfl, rfl⟩, ?_⟩
                intro h
                rcases h with h | h
                · exact absurd h (by simp)
                · cases wres with
                  | ok o => exact h.elim
                  | err e => exact h.elim
                  | exn m => exact absurd h.2 (by simp)
              | succ n =>
                cases wres with
                | ok h =>
                  cases h with
                  | some html =>
                    refine ⟨Or.inl ⟨?_, ?_⟩, ?_⟩
                    · simp [ChatbotOrchestrator.process_query]
                    · simp [ChatbotOrchestrator.process_query]
                    · intro h
                      rcases h with h | h
                      · exact absurd h (by simp)
                      · exact h.elim
                  | none =>
                    refine ⟨Or.inl ⟨?_, ?_⟩, ?_⟩
                    · simp [ChatbotOrchestrator.process_query]
                    · simp [ChatbotOrchestrator.process_query]
                    · intro h
                      rcases h with h | h
                      · exact absurd h (by simp)
                      · exact h.elim
                | err e =>
                  refine ⟨Or.inl ⟨?_, ?_⟩, ?_⟩
                  · simp [ChatbotOrchestrator.process_query]
                  · simp [ChatbotOrchestrator.process_query]
                  · intro h
                    rcases h with h | h
                    · exact absurd h (by simp)
                    · exact h.elim
                | exn m =>
                  constructor
                  · refine Or.inr ⟨?_, "Unexpected error: " ++ m, ?_,
                      string_append_ne_empty (by decide)⟩ <;>
                      simp [ChatbotOrchestrator.process_query,
                        ChatbotOrchestrator.failWith]
                  · intro _
                    refine ⟨?_, "Unexpected error: " ++ m, ?_,
                      string_append_ne_empty (by decide)⟩ <;>
                      simp [ChatbotOrchestrator.process_query,
                        ChatbotOrchestrator.failWith]

/-- C5 witness: a run whose schema stage fails ends Failed with a
non-empty error message. -/
theorem c5_never_throws_witness :
    (ChatbotOrchestrator.process_query
      { user_query := "q", include_visualization := true,
        schemaRes := .err "db down", sqlRes := .ok ⟨"SELECT 1", [], none⟩,
        valRes := .ok ⟨true, [], [], none, true⟩,
        execRes := .ok ⟨1⟩, vizRes := .ok none }).1.status =
      QueryStatus.failed ∧
    ∃ m, (ChatbotOrchestrator.process_query
      { user_query := "q", include_visualization := true,
        schemaRes := .err "db down", sqlRes := .ok ⟨"SELECT 1", [], none⟩,
        valRes := .ok ⟨true, [], [], none, true⟩,
        execRes := .ok ⟨1⟩, vizRes := .ok none }).1.error_message = some m ∧
      m ≠ "" :=
  (c5_never_throws
    { user_query := "q", include_visualization := true,
      schemaRes := .err "db down", sqlRes := .ok ⟨"SELECT 1", [], none⟩,
      valRes := .ok ⟨true, [], [], none, true⟩,
      execRes := .ok ⟨1⟩, vizRes := .ok none }).2 True.intro
